import Mathlib

/-!
Verification of the facet-update module of this repository
(`milli/src/update/facet/mod.rs`) against its specification.

The development shallowly embeds the relevant parts of the source:

* the dispatch performed by `FacetsUpdate::execute` (which update method is
  invoked for a facet delta batch);
* the truncation of over-long normalized facet values performed inside
  `FacetsUpdate::execute` when rebuilding the normalized-string mirror;
* the bulk construction of the facet tree levels, together with the
  structural invariant checked by `FacetIndex::verify_structure_validity`.

Strings are modelled as lists of `Char`, with byte positions computed via
`Char.utf8Size`, matching Rust's `str::char_indices`.  Roaring bitmaps of
document ids are modelled as `Finset ℕ`.
-/

namespace MeiliFacet

/-- The two update methods described by the module documentation of
`milli/src/update/facet/mod.rs`. -/
inductive UpdateMethod where
  | bulk
  | incremental
deriving DecidableEq, Repr

/-- Embedding of the dispatch logic of `FacetsUpdate::execute`
(mod.rs lines 125-141): when the delta batch is empty (`n_delta = 0`,
corresponding to `self.delta_data.is_empty()`) the function returns at once
without dispatching; otherwise it unconditionally builds a
`FacetsUpdateBulk` and executes it.  The number of level-0 keys already
stored (`n_existing`) is never consulted. -/
def executeDispatch (n_delta n_existing : Nat) : Option UpdateMethod :=
  if n_delta = 0 then none else some UpdateMethod.bulk

/-- The update selector exactly as the specification words it (spec §4.6):
bulk when `n_existing = 0` or `n_delta * 50 ≥ n_existing + n_delta`,
incremental otherwise.  Declared only to be compared against
`executeDispatch`, the embedding of the source. -/
def claimedDispatch (n_delta n_existing : Nat) : UpdateMethod :=
  if n_existing = 0 ∨ n_existing + n_delta ≤ n_delta * 50 then
    UpdateMethod.bulk
  else
    UpdateMethod.incremental

/-- Total number of UTF-8 bytes of a string, modelled as a list of chars;
this is Rust's `str::len`. -/
def utf8Len (s : List Char) : Nat := (s.map Char.utf8Size).sum

/-- Embedding of Rust's `str::char_indices` starting from byte offset `i`:
each character paired with the byte index at which it starts. -/
def charIndices (i : Nat) : List Char → List (Nat × Char)
  | [] => []
  | c :: cs => (i, c) :: charIndices (i + c.utf8Size) cs

/-- Embedding of the normalized-facet truncation in `FacetsUpdate::execute`
(mod.rs lines 168-177): if the normalized facet is longer than
`maxLen` bytes, keep exactly the characters returned by
`char_indices().take_while(|(idx, _)| *idx < maxLen)`; otherwise keep the
string unchanged.  `maxLen` stands for `MAX_FACET_VALUE_LENGTH`, which the
specification (§9) directs to expose as explicit configuration. -/
def normalizedTruncatedFacet (maxLen : Nat) (s : List Char) : List Char :=
  if maxLen < utf8Len s then
    ((charIndices 0 s).takeWhile (fun ic => ic.1 < maxLen)).map Prod.snd
  else s

/-- Direct recursive form of the truncation loop, used to reason about
`normalizedTruncatedFacet`: starting at byte offset `i`, a character is kept
exactly when its start offset is below `maxLen`. -/
def truncGo (maxLen : Nat) : Nat → List Char → List Char
  | _, [] => []
  | i, c :: cs => if i < maxLen then c :: truncGo maxLen (i + c.utf8Size) cs else []

/-- A node of the facet tree: its left bound (the smallest facet value of
its subtree), its number of immediate children (`0` for leaves), and the
union of the document ids of its subtree.  This is `FacetGroupKey` plus
`FacetGroupValue` of the source, with the key abstracted to `α` and the
roaring bitmap modelled as a `Finset ℕ`. -/
structure FacetNode (α : Type) where
  left_bound : α
  size : Nat
  docids : Finset ℕ

variable {α : Type}

/-- Union of the docids of a list of facet nodes. -/
def unionDocids : List (FacetNode α) → Finset ℕ
  | [] => ∅
  | n :: ns => n.docids ∪ unionDocids ns

/-- Modelled from the spec: the bulk builder (the source's
`FacetsUpdateBulkInner`, in `milli/src/update/facet/bulk.rs`, which is not
among the provided source files) builds level `L + 1` from level `L` per
spec §4.4 step 3: iterate the lower level in order, group consecutive nodes
into chunks of exactly `g` (`group_size`; the last chunk may be shorter but
is non-empty), and emit per chunk a node whose left bound is the first
member's left bound, whose size is the chunk length, and whose docids are
the union of the chunk's bitmaps. -/
def buildLevel (g : Nat) : List (FacetNode α) → List (FacetNode α)
  | [] => []
  | x :: xs =>
    ⟨x.left_bound, (x :: xs.take (g - 1)).length, unionDocids (x :: xs.take (g - 1))⟩
      :: buildLevel g (xs.drop (g - 1))
termination_by l => l.length
decreasing_by simp only [List.length_drop, List.length_cons]; omega

/-- Modelled from the spec (§4.4 step 4): the tower of levels obtained by
repeated grouping above a list of level-0 leaves.  The materialized tree
stores the levels of this tower up to the first one with fewer than
`min_level_size` nodes; the invariants proved below hold for every level of
the tower, hence for every materialized level. -/
def facetLevels (g : Nat) (leaves : List (FacetNode α)) : Nat → List (FacetNode α)
  | 0 => leaves
  | L + 1 => buildLevel g (facetLevels g leaves L)

/-- Number of lower-level keys covered by the first `i` nodes of a level:
the sum of their sizes.  Node `i` of a level covers the keys of the level
below starting at this offset. -/
def sizesBefore (ps : List (FacetNode α)) (i : Nat) : Nat :=
  ((ps.take i).map FacetNode.size).sum

/-- The per-node structural invariant checked by
`FacetIndex::verify_structure_validity` (mod.rs lines 402-456) for a
non-leaf node `N` whose children start at position `off` of the level
below, stored as the list `cs`: the size is positive, the next `size`
keys below exist (the contiguous segment has full length), the first
child's left bound equals the node's left bound, and the node's docids
are the union of those children's docids. -/
def validParent (cs : List (FacetNode α)) (off : Nat) (N : FacetNode α) : Prop :=
  0 < N.size ∧
  ((cs.drop off).take N.size).length = N.size ∧
  (((cs.drop off).take N.size).map FacetNode.left_bound).head? = some N.left_bound ∧
  N.docids = unionDocids ((cs.drop off).take N.size)

/-- Modelled from the spec (§4.4 step 1): merge one delta entry
`(key, additions, deletions)` into the sorted level-0 leaf list; deletions
are applied before additions, and a leaf whose resulting bitmap is empty is
removed (or never created). -/
def mergeOne [LinearOrder α] (k : α) (adds dels : Finset ℕ) :
    List (FacetNode α) → List (FacetNode α)
  | [] =>
    if (∅ \ dels) ∪ adds = (∅ : Finset ℕ) then []
    else [⟨k, 0, (∅ \ dels) ∪ adds⟩]
  | l :: ls =>
    if k < l.left_bound then
      (if (∅ \ dels) ∪ adds = (∅ : Finset ℕ) then l :: ls
       else ⟨k, 0, (∅ \ dels) ∪ adds⟩ :: l :: ls)
    else if k = l.left_bound then
      (if (l.docids \ dels) ∪ adds = (∅ : Finset ℕ) then ls
       else ⟨k, 0, (l.docids \ dels) ∪ adds⟩ :: ls)
    else l :: mergeOne k adds dels ls

/-- Modelled from the spec (§4.4 step 1): one bulk insert merges a delta —
a list of `(key, additions, deletions)` entries, already merged per key —
into the level-0 leaf list; all higher levels are then rebuilt from scratch
by `facetLevels`. -/
def mergeDelta [LinearOrder α] (leaves : List (FacetNode α))
    (delta : List (α × Finset ℕ × Finset ℕ)) : List (FacetNode α) :=
  delta.foldl (fun acc kad => mergeOne kad.1 kad.2.1 kad.2.2 acc) leaves

end MeiliFacet

namespace MeiliFacet

theorem char_utf8Size_le_four (c : Char) : c.utf8Size ≤ 4 := by
  simp only [Char.utf8Size]
  split
  · omega
  · split
    · omega
    · split <;> omega

theorem char_utf8Size_pos (c : Char) : 0 < c.utf8Size := by
  simp only [Char.utf8Size]
  split
  · omega
  · split
    · omega
    · split <;> omega

theorem utf8Len_nil : utf8Len [] = 0 := rfl

theorem utf8Len_cons (c : Char) (cs : List Char) :
    utf8Len (c :: cs) = c.utf8Size + utf8Len cs := by
  simp [utf8Len]

theorem takeWhile_charIndices_eq_truncGo (maxLen : Nat) (s : List Char) :
    ∀ i, ((charIndices i s).takeWhile (fun ic => ic.1 < maxLen)).map Prod.snd
      = truncGo maxLen i s := by
  induction s with
  | nil => intro i; simp [charIndices, truncGo]
  | cons c cs ih =>
    intro i
    by_cases h : i < maxLen
    · simp [charIndices, truncGo, List.takeWhile_cons, h, ih]
    · simp [charIndices, truncGo, List.takeWhile_cons, h]

theorem truncGo_eq_nil_of_le (maxLen i : Nat) (s : List Char) (h : maxLen ≤ i) :
    truncGo maxLen i s = [] := by
  cases s with
  | nil => rfl
  | cons c cs => simp [truncGo, Nat.not_lt.mpr h]

theorem truncGo_is_take (maxLen : Nat) (s : List Char) :
    ∀ i, ∃ k, truncGo maxLen i s = s.take k := by
  induction s with
  | nil => intro i; exact ⟨0, rfl⟩
  | cons c cs ih =>
    intro i
    by_cases h : i < maxLen
    · obtain ⟨k, hk⟩ := ih (i + c.utf8Size)
      exact ⟨k + 1, by simp [truncGo, h, hk]⟩
    · exact ⟨0, by simp [truncGo, h]⟩

theorem truncGo_len_lower (maxLen : Nat) (s : List Char) :
    ∀ i, i ≤ maxLen → maxLen < i + utf8Len s →
      maxLen ≤ i + utf8Len (truncGo maxLen i s) := by
  induction s with
  | nil => intro i hle hlt; simp [utf8Len_nil] at hlt; omega
  | cons c cs ih =>
    intro i hle hlt
    by_cases h : i < maxLen
    · rw [truncGo, if_pos h, utf8Len_cons]
      by_cases h2 : i + c.utf8Size ≤ maxLen
      · have := ih (i + c.utf8Size) h2 (by rw [utf8Len_cons] at hlt; omega)
        omega
      · omega
    · rw [truncGo, if_neg h, utf8Len_nil]
      omega

theorem truncGo_len_upper (maxLen : Nat) (s : List Char) :
    ∀ i, i ≤ maxLen → i + utf8Len (truncGo maxLen i s) ≤ maxLen + 3 := by
  induction s with
  | nil => intro i hle; simp [truncGo, utf8Len_nil]; omega
  | cons c cs ih =>
    intro i hle
    by_cases h : i < maxLen
    · rw [truncGo, if_pos h, utf8Len_cons]
      by_cases h2 : i + c.utf8Size ≤ maxLen
      · have := ih (i + c.utf8Size) h2
        omega
      · have hsz := char_utf8Size_le_four c
        have : truncGo maxLen (i + c.utf8Size) cs = [] :=
          truncGo_eq_nil_of_le _ _ _ (by omega)
        rw [this, utf8Len_nil]
        omega
    · rw [truncGo, if_neg h, utf8Len_nil]
      omega

theorem truncGo_len_minimal (maxLen : Nat) (s : List Char) :
    ∀ i k, maxLen ≤ i + utf8Len (s.take k) →
      utf8Len (truncGo maxLen i s) ≤ utf8Len (s.take k) := by
  induction s with
  | nil => intro i k _; simp [truncGo]
  | cons c cs ih =>
    intro i k hk
    by_cases h : i < maxLen
    · cases k with
      | zero =>
        simp [utf8Len_nil] at hk
        omega
      | succ k =>
        rw [List.take_succ_cons, utf8Len_cons] at hk ⊢
        rw [truncGo, if_pos h, utf8Len_cons]
        by_cases h2 : maxLen ≤ i + c.utf8Size
        · have : truncGo maxLen (i + c.utf8Size) cs = [] :=
            truncGo_eq_nil_of_le _ _ _ h2
          rw [this, utf8Len_nil]
          omega
        · have := ih (i + c.utf8Size) k (by omega)
          omega
    · rw [truncGo, if_neg h, utf8Len_nil]
      omega

/-- C1 counterexample: a non-empty batch touching `n_delta = 1` distinct
leaf key against an existing database of `n_existing = 100` level-0 keys.
The claimed selector chooses the incremental updater there, but
`FacetsUpdate::execute` dispatches to the bulk builder. -/
theorem executeDispatch_counterexample :
    claimedDispatch 1 100 = UpdateMethod.incremental ∧
    executeDispatch 1 100 = some UpdateMethod.bulk := by
  constructor
  · rfl
  · rfl

/-- C1 (amended): for every non-empty facet update batch,
`FacetsUpdate::execute` dispatches to the bulk builder, regardless of
`n_delta` and `n_existing`; an empty batch dispatches nothing. -/
theorem executeDispatch_always_bulk (n_delta n_existing : Nat)
    (h : 0 < n_delta) :
    executeDispatch n_delta n_existing = some UpdateMethod.bulk := by
  simp [executeDispatch]
  omega

/-- Witness for `executeDispatch_always_bulk` at the concrete input
`n_delta = 1`, `n_existing = 100`. -/
theorem executeDispatch_always_bulk_witness :
    0 < 1 ∧ executeDispatch 1 100 = some UpdateMethod.bulk :=
  ⟨by decide, executeDispatch_always_bulk 1 100 (by decide)⟩

/-- C3 counterexample: with a byte limit of `3`, the normalization
`['a', 'a', 'é']` occupies `4 > 3` bytes, yet the stored normalized key is
the string unchanged — the two-byte character starting at byte index `2 < 3`
is kept whole — so its byte length `4` still exceeds the limit,
contradicting both the claimed truncation boundary (which would store
`['a', 'a']`) and the claimed bound on stored key length. -/
theorem normalizedTruncatedFacet_counterexample :
    3 < utf8Len [Char.ofNat 97, Char.ofNat 97, Char.ofNat 233] ∧
    normalizedTruncatedFacet 3 [Char.ofNat 97, Char.ofNat 97, Char.ofNat 233]
      = [Char.ofNat 97, Char.ofNat 97, Char.ofNat 233] ∧
    3 < utf8Len (normalizedTruncatedFacet 3
      [Char.ofNat 97, Char.ofNat 97, Char.ofNat 233]) := by
  refine ⟨by decide, by decide, by decide⟩

/-- C3 (amended): when the normalization of a level-0 string facet value
exceeds the byte limit, the stored normalized key is a prefix of the
normalization cut at the smallest character boundary at or above the limit
(every character starting strictly below the limit is kept): its byte
length is at least the limit, at most the limit plus 3, and no longer than
any prefix of the normalization whose byte length reaches the limit. -/
theorem normalizedTruncatedFacet_characterization (maxLen : Nat) (s : List Char)
    (h : maxLen < utf8Len s) :
    (∃ k, normalizedTruncatedFacet maxLen s = s.take k) ∧
    maxLen ≤ utf8Len (normalizedTruncatedFacet maxLen s) ∧
    utf8Len (normalizedTruncatedFacet maxLen s) ≤ maxLen + 3 ∧
    (∀ k, maxLen ≤ utf8Len (s.take k) →
      utf8Len (normalizedTruncatedFacet maxLen s) ≤ utf8Len (s.take k)) := by
  have hrw : normalizedTruncatedFacet maxLen s = truncGo maxLen 0 s := by
    rw [normalizedTruncatedFacet, if_pos h, takeWhile_charIndices_eq_truncGo]
  rw [hrw]
  refine ⟨truncGo_is_take maxLen s 0, ?_, ?_, ?_⟩
  · have := truncGo_len_lower maxLen s 0 (Nat.zero_le _) (by omega)
    omega
  · have := truncGo_len_upper maxLen s 0 (Nat.zero_le _)
    omega
  · intro k hk
    exact truncGo_len_minimal maxLen s 0 k (by omega)

theorem take_len_take {β : Type} (xs : List β) (n : Nat) :
    xs.take ((xs.take n).length) = xs.take n := by
  rcases le_total n xs.length with h | h
  · rw [List.length_take, min_eq_left h]
  · rw [List.take_of_length_le h, List.take_length]

theorem drop_len_take {β : Type} (xs : List β) (n : Nat) :
    xs.drop ((xs.take n).length) = xs.drop n := by
  rcases le_total n xs.length with h | h
  · rw [List.length_take, min_eq_left h]
  · rw [List.take_of_length_le h, List.drop_length, List.drop_eq_nil_of_le h]

theorem sizesBefore_zero {α : Type} (ps : List (FacetNode α)) :
    sizesBefore ps 0 = 0 := rfl

theorem sizesBefore_succ {α : Type} (p : FacetNode α) (ps : List (FacetNode α)) (i : Nat) :
    sizesBefore (p :: ps) (i + 1) = p.size + sizesBefore ps i := by
  simp [sizesBefore, List.take_succ_cons]

theorem validParent_drop {α : Type} (cs : List (FacetNode α)) (d off : Nat)
    (N : FacetNode α) (h : validParent (cs.drop d) off N) :
    validParent cs (d + off) N := by
  unfold validParent at h ⊢
  rw [← List.drop_drop]
  exact h

theorem buildLevel_validParent {α : Type} (g : Nat) :
    ∀ (i : Nat) (cs : List (FacetNode α)) (N : FacetNode α),
      (buildLevel g cs)[i]? = some N →
      validParent cs (sizesBefore (buildLevel g cs) i) N := by
  intro i
  induction i with
  | zero =>
    intro cs N hN
    cases cs with
    | nil => simp [buildLevel] at hN
    | cons x xs =>
      simp only [buildLevel, List.getElem?_cons_zero, Option.some_inj] at hN
      subst hN
      have hseg : ((x :: xs).drop 0).take ((x :: xs.take (g - 1)).length)
          = x :: xs.take (g - 1) := by
        rw [List.drop_zero, List.length_cons, List.take_succ_cons, take_len_take]
      simp only [buildLevel, sizesBefore_zero]
      refine ⟨Nat.succ_pos _, ?_, ?_, ?_⟩
      · rw [hseg]
      · rw [hseg]; rfl
      · rw [hseg]
  | succ j ih =>
    intro cs N hN
    cases cs with
    | nil => simp [buildLevel] at hN
    | cons x xs =>
      simp only [buildLevel, List.getElem?_cons_succ] at hN
      have h2 := ih (xs.drop (g - 1)) N hN
      have h3 : validParent ((x :: xs).drop ((xs.take (g - 1)).length + 1))
          (sizesBefore (buildLevel g (xs.drop (g - 1))) j) N := by
        rw [List.drop_succ_cons, drop_len_take]
        exact h2
      have h4 := validParent_drop (x :: xs) ((xs.take (g - 1)).length + 1)
        (sizesBefore (buildLevel g (xs.drop (g - 1))) j) N h3
      simp only [buildLevel, sizesBefore_succ]
      exact h4

/-- C2: after any sequence of bulk inserts (each merging a delta into the
level-0 leaves, deletions before additions, and rebuilding all higher
levels from scratch), every non-leaf node `N` at level `L + 1` of the
rebuilt tree satisfies the structural invariant of
`FacetIndex::verify_structure_validity`: its size is positive, the next
`size N` keys of level `L` starting at the node's offset exist and are
contiguous, the first of them carries the node's left bound, and the
node's docids are exactly the union of those children's docids. -/
theorem bulk_insert_structure_validity {α : Type} [LinearOrder α]
    (g : Nat) (initial : List (FacetNode α))
    (deltas : List (List (α × Finset ℕ × Finset ℕ))) (L i : Nat) (N : FacetNode α)
    (h : (facetLevels g (deltas.foldl mergeDelta initial) (L + 1))[i]? = some N) :
    validParent (facetLevels g (deltas.foldl mergeDelta initial) L)
      (sizesBefore (facetLevels g (deltas.foldl mergeDelta initial) (L + 1)) i) N :=
  buildLevel_validParent g i (facetLevels g (deltas.foldl mergeDelta initial) L) N h

/-- Witness for `bulk_insert_structure_validity` at a concrete input: one
bulk insert of two leaf additions into an empty index, with group size 2;
the single level-1 node has both leaves as children. -/
theorem bulk_insert_structure_validity_witness :
    (facetLevels 2 (([[((0 : ℕ), ({1} : Finset ℕ), (∅ : Finset ℕ)),
          ((1 : ℕ), ({2} : Finset ℕ), (∅ : Finset ℕ))]]).foldl mergeDelta []) 1)[0]? =
        some (⟨0, 2, ({1, 2} : Finset ℕ)⟩ : FacetNode ℕ) ∧
    validParent
      (facetLevels 2 (([[((0 : ℕ), ({1} : Finset ℕ), (∅ : Finset ℕ)),
          ((1 : ℕ), ({2} : Finset ℕ), (∅ : Finset ℕ))]]).foldl mergeDelta []) 0)
      (sizesBefore
        (facetLevels 2 (([[((0 : ℕ), ({1} : Finset ℕ), (∅ : Finset ℕ)),
          ((1 : ℕ), ({2} : Finset ℕ), (∅ : Finset ℕ))]]).foldl mergeDelta []) 1) 0)
      (⟨0, 2, ({1, 2} : Finset ℕ)⟩ : FacetNode ℕ) := by
  have h : (facetLevels 2 (([[((0 : ℕ), ({1} : Finset ℕ), (∅ : Finset ℕ)),
          ((1 : ℕ), ({2} : Finset ℕ), (∅ : Finset ℕ))]]).foldl mergeDelta []) 1)[0]? =
        some (⟨0, 2, ({1, 2} : Finset ℕ)⟩ : FacetNode ℕ) := by
    simp [facetLevels, buildLevel, mergeDelta, mergeOne, unionDocids,
      Finset.singleton_ne_empty]
    decide
  exact ⟨h, bulk_insert_structure_validity 2 [] _ 0 0 _ h⟩

/-- Witness for `normalizedTruncatedFacet_characterization` at the concrete
input `maxLen = 3`, `s` the three characters a, a, e-acute. -/
theorem normalizedTruncatedFacet_characterization_witness :
    3 < utf8Len [Char.ofNat 97, Char.ofNat 97, Char.ofNat 233] ∧
    ((∃ k, normalizedTruncatedFacet 3 [Char.ofNat 97, Char.ofNat 97, Char.ofNat 233]
        = ([Char.ofNat 97, Char.ofNat 97, Char.ofNat 233] : List Char).take k) ∧
      3 ≤ utf8Len (normalizedTruncatedFacet 3
        [Char.ofNat 97, Char.ofNat 97, Char.ofNat 233]) ∧
      utf8Len (normalizedTruncatedFacet 3
        [Char.ofNat 97, Char.ofNat 97, Char.ofNat 233]) ≤ 3 + 3 ∧
      (∀ k, 3 ≤ utf8Len (([Char.ofNat 97, Char.ofNat 97, Char.ofNat 233] : List Char).take k) →
        utf8Len (normalizedTruncatedFacet 3
          [Char.ofNat 97, Char.ofNat 97, Char.ofNat 233])
          ≤ utf8Len (([Char.ofNat 97, Char.ofNat 97, Char.ofNat 233] : List Char).take k))) :=
  ⟨by decide,
    normalizedTruncatedFacet_characterization 3
      [Char.ofNat 97, Char.ofNat 97, Char.ofNat 233] (by decide)⟩

end MeiliFacet
